import Mathlib

/-!
Verification of the age-band aggregation and weekly-file reconciliation core
of the patient-report app (`src/App.jsx`, with earlier variants of the same
component in `src/unnamed/part_000` and `src/unnamed/part_001`).

JavaScript cell values are embedded as `CellValue`; JavaScript numbers are
embedded as `JSNum` (a rational together with the three non-finite values,
which is exact for every value the analysed code produces: integer
arithmetic, decimal literals, and counts). Dates are embedded as civil
calendar days (days since the Unix epoch), which models the source's
local-time `Date` year/month/day arithmetic under a fixed UTC offset.
-/

set_option maxRecDepth 4000

/-- A JavaScript number: finite (modelled exactly as a rational) or one of
`NaN`, `Infinity`, `-Infinity`. -/
inductive JSNum where
  | fin (q : ℚ)
  | nan
  | inf
  | negInf
  deriving DecidableEq, Repr

/-- A JavaScript cell value as produced by `sheet_to_json` and fed to
`normalizeAge`: `null`, `undefined`, a boolean, a number or a string. -/
inductive CellValue where
  | vNull
  | vUndef
  | vBool (b : Bool)
  | vNum (n : JSNum)
  | vStr (s : String)
  deriving DecidableEq, Repr

/-- `'0' ≤ c ≤ '9'`, the character class `\d` of the JS regexes. -/
def isDigitCh (c : Char) : Bool :=
  '0' ≤ c && c ≤ '9'

/-- JS whitespace as consumed by `String.prototype.trim` (the characters
relevant to spreadsheet cell content; the full JS class also contains
further rare Unicode space separators, none of which affect any claim). -/
def isJsSpace (c : Char) : Bool :=
  c == ' ' || c == '\t' || c == '\n' || c == '\r' ||
    c == '\x0b' || c == '\x0c' || c == '\u00A0'

/-- `String.prototype.trim` on the character list of a string. -/
def trimChars (cs : List Char) : List Char :=
  ((cs.dropWhile isJsSpace).reverse.dropWhile isJsSpace).reverse

/-- `Math.floor` on a finite JS number: the floor of the rational, computed
by `Rat.floor` (shown to agree with the mathematical floor `⌊q⌋` in
`ratFloor_eq_intFloor`). -/
def jsFloor (q : ℚ) : ℤ :=
  q.floor

/-- Value of a list of decimal digit characters (most significant first). -/
def digitsVal (cs : List Char) : ℕ :=
  cs.foldl (fun n c => 10 * n + (c.toNat - 48)) 0

/-- Parses a string of the decimal shape `\d+(\.\d+)?` into its exact value;
`none` on any other shape.

Modelling note: the source applies JS `Number()` only to capture-group-1
matches of its age regexes.  On strings of the decimal shape `Number()`
returns exactly the decimal value (always finite here), and on every other
string that those groups can produce (in particular any string containing a
backslash) it returns `NaN`; `decValue?` captures precisely this behaviour
on that input domain. -/
def decValue? (cs : List Char) : Option ℚ :=
  let intPart := cs.takeWhile isDigitCh
  if intPart.isEmpty then none
  else
    match cs.dropWhile isDigitCh with
    | [] => some (mkRat (digitsVal intPart) 1)
    | '.' :: frac =>
      if frac.isEmpty || !frac.all isDigitCh then none
      else
        some (mkRat (digitsVal intPart * 10 ^ frac.length + digitsVal frac) (10 ^ frac.length))
    | _ => none

/-- JS `Number()` restricted to the strings reachable in `normalizeAge`
(see `decValue?`). -/
def jsNumber (s : String) : JSNum :=
  match decValue? s.data with
  | some q => JSNum.fin q
  | none => JSNum.nan

/-- Match, at the head of `cs`, the pattern of the regex literal
`/(\\d+(\\.\\d+)?)/` that `src/App.jsx` line 94 actually contains.  Inside a
JS regex literal `\\` matches one literal backslash character, so the
pattern is: a backslash, one or more letters `d`, optionally followed by
(backslash, any character, backslash, one or more letters `d`).  Greedy
matching needs no backtracking for this pattern because the optional group
cannot begin with the letter `d`. -/
def matchBuggyAt (cs : List Char) : Option (List Char) :=
  match cs with
  | '\\' :: rest =>
    let ds := rest.takeWhile (· == 'd')
    if ds.isEmpty then none
    else
      match rest.dropWhile (· == 'd') with
      | '\\' :: c :: '\\' :: r3 =>
        let ds2 := r3.takeWhile (· == 'd')
        if ds2.isEmpty then some ('\\' :: ds)
        else some ('\\' :: ds ++ '\\' :: c :: '\\' :: ds2)
      | _ => some ('\\' :: ds)
  | _ => none

/-- Match, at the head of `cs`, the pattern of the regex
`/(\d+(\.\d+)?)/` used by the earlier variants of the component
(`src/unnamed/part_000` line 45, `src/unnamed/part_001` line 48): one or
more digits, optionally followed by a dot and one or more digits.  Greedy
matching needs no backtracking because the optional group cannot begin with
a digit. -/
def matchDecAt (cs : List Char) : Option (List Char) :=
  let ds := cs.takeWhile isDigitCh
  if ds.isEmpty then none
  else
    match cs.dropWhile isDigitCh with
    | '.' :: rest =>
      let ds2 := rest.takeWhile isDigitCh
      if ds2.isEmpty then some ds else some (ds ++ '.' :: ds2)
    | _ => some ds

/-- Leftmost match: `String.prototype.match` with a non-global regex tries
the pattern at each start position from the left and returns the first
success. -/
def firstMatch (matchAt : List Char → Option (List Char)) : List Char → Option (List Char)
  | [] => matchAt []
  | cs@(_ :: rest) =>
    match matchAt cs with
    | some m => some m
    | none => firstMatch matchAt rest

/-- `normalizeAge` exactly as in `src/App.jsx` lines 86–101, including the
double-backslash regex literal of line 94 (see `matchBuggyAt`). -/
def normalizeAge (value : CellValue) : Option ℤ :=
  match value with
  | CellValue.vNull => none
  | CellValue.vUndef => none
  | CellValue.vNum (JSNum.fin q) => some (jsFloor q)
  | CellValue.vNum _ => none
  | CellValue.vStr s =>
    let trimmed := trimChars s.data
    if trimmed.isEmpty then none
    else
      match firstMatch matchBuggyAt trimmed with
      | none => none
      | some m =>
        match jsNumber (String.mk m) with
        | JSNum.fin q => some (jsFloor q)
        | _ => none
  | CellValue.vBool _ => none

/-- `normalizeAge` as in the earlier variants of the same component
(`src/unnamed/part_000` lines 37–52, `src/unnamed/part_001`), whose string
branch uses the single-backslash regex `/(\d+(\.\d+)?)/`. -/
def normalizeAgeDec (value : CellValue) : Option ℤ :=
  match value with
  | CellValue.vNull => none
  | CellValue.vUndef => none
  | CellValue.vNum (JSNum.fin q) => some (jsFloor q)
  | CellValue.vNum _ => none
  | CellValue.vStr s =>
    let trimmed := trimChars s.data
    if trimmed.isEmpty then none
    else
      match firstMatch matchDecAt trimmed with
      | none => none
      | some m =>
        match jsNumber (String.mk m) with
        | JSNum.fin q => some (jsFloor q)
        | _ => none
  | CellValue.vBool _ => none

/-- `⌊q⌋` and the computable `Rat.floor` agree. -/
theorem ratFloor_eq_intFloor (q : ℚ) : jsFloor q = ⌊q⌋ := by
  rw [jsFloor, Rat.floor_def', ← Rat.floor_def]

example : normalizeAge (CellValue.vStr "45") = none := by decide
example : normalizeAgeDec (CellValue.vStr "45") = some 45 := by decide
example : normalizeAgeDec (CellValue.vStr "age 6.9 yrs") = some 6 := by decide
example : normalizeAge (CellValue.vNum (JSNum.fin (mkRat 69 10))) = some 6 := by decide
example : normalizeAge (CellValue.vNum (JSNum.fin (mkRat (-5) 2))) = some (-3) := by decide

/-- A child band of the `AGE_GROUPS` taxonomy (`src/App.jsx` lines 13–35),
with its running tally (`count`), as produced by `buildCounts`. -/
structure ChildBand where
  id : String
  label : String
  lo : ℤ
  hi : ℤ
  count : ℕ
  deriving DecidableEq, Repr

/-- A top-level band of the `AGE_GROUPS` taxonomy with its running tally
and its child bands. -/
structure GroupBand where
  id : String
  label : String
  lo : ℤ
  hi : ℤ
  count : ℕ
  children : List ChildBand
  deriving DecidableEq, Repr

/-- The fixed `AGE_GROUPS` taxonomy (`src/App.jsx` lines 13–35), already in
the zero-count form that `buildCounts` starts from (its first `map` copies
each group and child with `count: 0`). -/
def AGE_GROUPS : List GroupBand :=
  [ { id := "0-6", label := "0-6세", lo := 0, hi := 6, count := 0,
      children := [ { id := "0", label := "0세", lo := 0, hi := 0, count := 0 },
                    { id := "1-6", label := "1-6세", lo := 1, hi := 6, count := 0 } ] },
    { id := "7-18", label := "7-18세", lo := 7, hi := 18, count := 0,
      children := [ { id := "7-12", label := "7-12세", lo := 7, hi := 12, count := 0 },
                    { id := "13-18", label := "13-18세", lo := 13, hi := 18, count := 0 } ] },
    { id := "19-49", label := "19-49세", lo := 19, hi := 49, count := 0, children := [] },
    { id := "50-64", label := "50-64세", lo := 50, hi := 64, count := 0, children := [] },
    { id := "65+", label := "65세 이상", lo := 65, hi := 120, count := 0, children := [] } ]

/-- `age >= range[0] && age <= range[1]`. -/
def inRange (a lo hi : ℤ) : Bool :=
  lo ≤ a && a ≤ hi

/-- One iteration of the inner `children.forEach` of `buildCounts`. -/
def bumpChild (a : ℤ) (c : ChildBand) : ChildBand :=
  if inRange a c.lo c.hi then { c with count := c.count + 1 } else c

/-- One iteration of the `groups.forEach` body of `buildCounts`: on a range
match the group's count is incremented and every matching child's count is
incremented. -/
def bumpGroup (a : ℤ) (g : GroupBand) : GroupBand :=
  if inRange a g.lo g.hi then
    { g with count := g.count + 1, children := g.children.map (bumpChild a) }
  else g

/-- `buildCounts` (`src/App.jsx` lines 126–147): start from the zero-count
copy of `AGE_GROUPS` and, for each age in order, bump every matching group
(and its matching children). -/
def buildCounts (ages : List ℤ) : List GroupBand :=
  ages.foldl (fun gs a => gs.map (bumpGroup a)) AGE_GROUPS

/-- A sheet of a workbook: its name and its rows of cells, as delivered by
`sheet_to_json(sheet, {header: 1, raw: true, defval: null})`. -/
structure Sheet where
  name : String
  rows : List (List CellValue)
  deriving Repr

/-- The value of `findAgesInWorkbook`'s `best` variable. -/
structure BestResult where
  ages : List ℤ
  sheetName : String
  count : ℕ
  deriving DecidableEq, Repr

/-- The valid-age list a sheet contributes in `findAgesInWorkbook`: for
every row, read the cell at `TARGET_COLUMN_INDEX = 3` (missing cells are
`null`/`undefined`), normalise it, and keep results in `[0, 120]`. -/
def sheetValidAges (rows : List (List CellValue)) : List ℤ :=
  rows.filterMap (fun row =>
    match normalizeAge (row.getD 3 CellValue.vNull) with
    | some a => if 0 ≤ a && a ≤ 120 then some a else none
    | none => none)

/-- The `workbook.SheetNames.forEach` body of `findAgesInWorkbook`:
replace `best` only on a strictly longer valid-age list. -/
def stepBest (best : BestResult) (s : Sheet) : BestResult :=
  let ages := sheetValidAges s.rows
  if best.count < ages.length then
    { ages := ages, sheetName := s.name, count := ages.length }
  else best

/-- `findAgesInWorkbook` (`src/App.jsx` lines 103–124). -/
def findAgesInWorkbook (wb : List Sheet) : BestResult :=
  wb.foldl stepBest { ages := [], sheetName := "", count := 0 }

/-- A child node of the combined report tree built by `combineCounts`. -/
structure CombinedChild where
  id : String
  label : String
  totalCount : ℕ
  feverCount : ℕ
  deriving DecidableEq, Repr

/-- A top-level node of the combined report tree built by `combineCounts`. -/
structure CombinedGroup where
  id : String
  label : String
  totalCount : ℕ
  feverCount : ℕ
  children : List CombinedChild
  deriving DecidableEq, Repr

/-- `combineCounts` (`src/App.jsx` lines 149–170): iterate the visit tree;
for each group look up the same id in the fever tree, defaulting to
`{count: 0, children: []}`; for each child look up the same id among the
fever group's children, defaulting to `{}` whose `count || 0` is `0`. -/
def combineCounts (visitCounts feverCounts : List GroupBand) : List CombinedGroup :=
  visitCounts.map (fun group =>
    let feverGroup := (feverCounts.find? (fun item => item.id == group.id)).getD
      { id := group.id, label := "", lo := 0, hi := 0, count := 0, children := [] }
    { id := group.id, label := group.label,
      totalCount := group.count, feverCount := feverGroup.count,
      children := group.children.map (fun child =>
        { id := child.id, label := child.label,
          totalCount := child.count,
          feverCount := ((feverGroup.children.find? (fun item => item.id == child.id)).map
            (fun fc => fc.count)).getD 0 }) })

example : ((buildCounts [0, 3, 10, 20, 70]).map (fun g => g.count)) = [2, 1, 1, 0, 1] := by decide
example : (buildCounts [0, 3]).map (fun g => g.children.map (fun c => c.count)) =
    [[1, 1], [0, 0], [], [], []] := by decide

/-- The closed-form tally a child band receives from an age list: one per
age matching both the parent range and the child range (the child test is
nested inside the parent's match in the source). -/
def tallyChild (ages : List ℤ) (glo ghi : ℤ) (c : ChildBand) : ChildBand :=
  { c with count := c.count + ages.countP (fun a => inRange a glo ghi && inRange a c.lo c.hi) }

/-- The closed-form tally a group receives from an age list. -/
def tallyGroup (ages : List ℤ) (g : GroupBand) : GroupBand :=
  { g with count := g.count + ages.countP (fun a => inRange a g.lo g.hi),
           children := g.children.map (tallyChild ages g.lo g.hi) }

theorem tallyChild_nil (glo ghi : ℤ) (c : ChildBand) : tallyChild [] glo ghi c = c := by
  simp [tallyChild]

theorem tallyChild_bump (a : ℤ) (ages : List ℤ) (glo ghi : ℤ) (c : ChildBand)
    (h : inRange a glo ghi = true) :
    tallyChild ages glo ghi (bumpChild a c) = tallyChild (a :: ages) glo ghi c := by
  by_cases hc : inRange a c.lo c.hi = true
  · simp only [tallyChild, bumpChild, if_pos hc, List.countP_cons, h, hc, Bool.and_self,
      if_pos]
    congr 1
    omega
  · simp only [tallyChild, bumpChild, if_neg hc, List.countP_cons]
    simp only [Bool.not_eq_true] at hc
    simp [hc]

theorem tallyGroup_bump (a : ℤ) (ages : List ℤ) (g : GroupBand) :
    tallyGroup ages (bumpGroup a g) = tallyGroup (a :: ages) g := by
  by_cases h : inRange a g.lo g.hi = true
  · simp only [bumpGroup, if_pos h, tallyGroup, List.map_map, List.countP_cons, h, if_pos]
    simp only [GroupBand.mk.injEq, true_and]
    refine ⟨by omega, ?_⟩
    apply List.map_congr_left
    intro c _
    exact tallyChild_bump a ages g.lo g.hi c h
  · simp only [Bool.not_eq_true] at h
    have hch : g.children.map (tallyChild (a :: ages) g.lo g.hi)
        = g.children.map (tallyChild ages g.lo g.hi) :=
      (List.map_congr_left (fun c _ => by
        simp [tallyChild, List.countP_cons, h])).symm
    simp [bumpGroup, h, tallyGroup, List.countP_cons, hch]

/-- `buildCounts` computes, for every band, the number of ages matching its
range (children counting only ages that also match the parent). -/
theorem buildCounts_eq (ages : List ℤ) :
    buildCounts ages = AGE_GROUPS.map (tallyGroup ages) := by
  suffices h : ∀ gs : List GroupBand,
      ages.foldl (fun gs a => gs.map (bumpGroup a)) gs = gs.map (tallyGroup ages) from h AGE_GROUPS
  induction ages with
  | nil =>
    intro gs
    simp only [List.foldl_nil]
    have hg : ∀ g : GroupBand, tallyGroup [] g = g := by
      intro g
      have hch : g.children.map (tallyChild [] g.lo g.hi) = g.children := by
        rw [List.map_congr_left (fun c _ => tallyChild_nil g.lo g.hi c)]
        simp
      simp [tallyGroup, hch]
    have hmap : gs.map (tallyGroup []) = gs := by
      rw [List.map_congr_left (fun g _ => hg g)]
      simp
    rw [hmap]
  | cons a t ih =>
    intro gs
    simp only [List.foldl_cons, ih, List.map_map]
    apply List.map_congr_left
    intro g _
    exact tallyGroup_bump a t g

/-- Splitting a count over a predicate into counts over two disjoint
covering predicates. -/
theorem countP_split (p q1 q2 : ℤ → Bool)
    (hcov : ∀ a, p a = true ↔ (q1 a = true ∨ q2 a = true))
    (hdisj : ∀ a, ¬(q1 a = true ∧ q2 a = true)) (l : List ℤ) :
    l.countP p = l.countP q1 + l.countP q2 := by
  induction l with
  | nil => simp
  | cons a t ih =>
    simp only [List.countP_cons, ih]
    have h1 := hcov a
    have h2 := hdisj a
    by_cases hq1 : q1 a = true <;> by_cases hq2 : q2 a = true <;>
      simp_all <;> omega

example : (buildCounts [0, 3, 10, 20, 70]).map (fun g => g.count) = [2, 1, 1, 0, 1] := by
  rw [buildCounts_eq]; decide

theorem inRange_eq_true (a lo hi : ℤ) : inRange a lo hi = true ↔ lo ≤ a ∧ a ≤ hi := by
  simp [inRange]

theorem countP_five_sum (l : List ℤ) (h : ∀ a ∈ l, 0 ≤ a ∧ a ≤ 120) :
    l.countP (fun a => inRange a 0 6) + l.countP (fun a => inRange a 7 18)
      + l.countP (fun a => inRange a 19 49) + l.countP (fun a => inRange a 50 64)
      + l.countP (fun a => inRange a 65 120) = l.length := by
  induction l with
  | nil => simp
  | cons a t ih =>
    have ha := h a (by simp)
    have ih2 := ih (fun x hx => h x (List.mem_cons_of_mem a hx))
    simp only [List.countP_cons, List.length_cons]
    simp only [inRange_eq_true]
    split_ifs <;> omega

/-- C3: on an age list whose members all lie in `[0, 120]`, every age
matches exactly one top-level band of `AGE_GROUPS` and at most one child
band inside any band, and the five top-level counts of `buildCounts` sum
to the length of the input list. -/
theorem buildCounts_exactly_one_band_and_total (ages : List ℤ)
    (h : ∀ a ∈ ages, 0 ≤ a ∧ a ≤ 120) :
    (∀ a ∈ ages, AGE_GROUPS.countP (fun g => inRange a g.lo g.hi) = 1
      ∧ ∀ g ∈ AGE_GROUPS, g.children.countP (fun c => inRange a c.lo c.hi) ≤ 1)
    ∧ ((buildCounts ages).map (fun g => g.count)).sum = ages.length := by
  constructor
  · intro a ha
    obtain ⟨h0, h1⟩ := h a ha
    constructor
    · simp only [AGE_GROUPS, List.countP_cons, List.countP_nil, inRange,
        Bool.and_eq_true, decide_eq_true_eq]
      split_ifs <;> omega
    · intro g hgmem
      simp only [AGE_GROUPS, List.mem_cons, List.not_mem_nil, or_false] at hgmem
      rcases hgmem with rfl | rfl | rfl | rfl | rfl <;>
        simp only [List.countP_cons, List.countP_nil, inRange_eq_true] <;>
        first
          | omega
          | (split_ifs <;> omega)
  · rw [buildCounts_eq]
    simp only [AGE_GROUPS, List.map_cons, List.map_nil, tallyGroup, List.sum_cons,
      List.sum_nil]
    have := countP_five_sum ages h
    omega

/-- Witness for C3 at the concrete age list `[0, 7, 30, 64, 120]`. -/
theorem buildCounts_exactly_one_band_and_total_witness :
    (∀ a ∈ ([0, 7, 30, 64, 120] : List ℤ),
        AGE_GROUPS.countP (fun g => inRange a g.lo g.hi) = 1
      ∧ ∀ g ∈ AGE_GROUPS, g.children.countP (fun c => inRange a c.lo c.hi) ≤ 1)
    ∧ ((buildCounts [0, 7, 30, 64, 120]).map (fun g => g.count)).sum
        = ([0, 7, 30, 64, 120] : List ℤ).length :=
  buildCounts_exactly_one_band_and_total [0, 7, 30, 64, 120] (by decide)

theorem cover_0_6 (a : ℤ) : inRange a 0 6 = true ↔
    ((inRange a 0 6 && inRange a 0 0) = true ∨ (inRange a 0 6 && inRange a 1 6) = true) := by
  simp only [Bool.and_eq_true, inRange_eq_true]
  omega

theorem disj_0_6 (a : ℤ) : ¬(((inRange a 0 6 && inRange a 0 0) = true)
    ∧ ((inRange a 0 6 && inRange a 1 6) = true)) := by
  simp only [Bool.and_eq_true, inRange_eq_true]
  omega

theorem cover_7_18 (a : ℤ) : inRange a 7 18 = true ↔
    ((inRange a 7 18 && inRange a 7 12) = true ∨ (inRange a 7 18 && inRange a 13 18) = true) := by
  simp only [Bool.and_eq_true, inRange_eq_true]
  omega

theorem disj_7_18 (a : ℤ) : ¬(((inRange a 7 18 && inRange a 7 12) = true)
    ∧ ((inRange a 7 18 && inRange a 13 18) = true)) := by
  simp only [Bool.and_eq_true, inRange_eq_true]
  omega

/-- C10: in every tree returned by `buildCounts`, a top-level band with
children has its count equal to the sum of its children's counts, and every
count in the tree is a non-negative integer. -/
theorem buildCounts_parent_eq_children_sum (ages : List ℤ) (g : GroupBand)
    (hg : g ∈ buildCounts ages) (hc : g.children ≠ []) :
    g.count = (g.children.map (fun c => c.count)).sum
      ∧ (0 : ℤ) ≤ (g.count : ℤ) ∧ ∀ c ∈ g.children, (0 : ℤ) ≤ (c.count : ℤ) := by
  have nonneg : ∀ n : ℕ, (0 : ℤ) ≤ (n : ℤ) := fun n => by omega
  rw [buildCounts_eq] at hg
  simp only [AGE_GROUPS, List.map_cons, List.map_nil, List.mem_cons, List.not_mem_nil,
    or_false] at hg
  rcases hg with rfl | rfl | rfl | rfl | rfl
  · refine ⟨?_, nonneg _, fun c _ => nonneg _⟩
    have hsplit := countP_split (fun a => inRange a 0 6)
      (fun a => inRange a 0 6 && inRange a 0 0)
      (fun a => inRange a 0 6 && inRange a 1 6) cover_0_6 disj_0_6 ages
    simp only [tallyGroup, tallyChild, List.map_cons, List.map_nil, List.sum_cons,
      List.sum_nil]
    omega
  · refine ⟨?_, nonneg _, fun c _ => nonneg _⟩
    have hsplit := countP_split (fun a => inRange a 7 18)
      (fun a => inRange a 7 18 && inRange a 7 12)
      (fun a => inRange a 7 18 && inRange a 13 18) cover_7_18 disj_7_18 ages
    simp only [tallyGroup, tallyChild, List.map_cons, List.map_nil, List.sum_cons,
      List.sum_nil]
    omega
  · simp [tallyGroup] at hc
  · simp [tallyGroup] at hc
  · simp [tallyGroup] at hc

/-- Witness for C10: the `0-6` band of `buildCounts [0, 1, 7, 13]`. -/
theorem buildCounts_parent_eq_children_sum_witness :
    ({ id := "0-6", label := "0-6세", lo := 0, hi := 6, count := 2,
       children := [ { id := "0", label := "0세", lo := 0, hi := 0, count := 1 },
                     { id := "1-6", label := "1-6세", lo := 1, hi := 6, count := 1 } ] }
        : GroupBand) ∈ buildCounts [0, 1, 7, 13]
    ∧ (2 : ℕ) = (([ { id := "0", label := "0세", lo := 0, hi := 0, count := 1 },
                     { id := "1-6", label := "1-6세", lo := 1, hi := 6, count := 1 } ]
        : List ChildBand).map (fun c => c.count)).sum := by
  constructor
  · decide
  · exact (buildCounts_parent_eq_children_sum [0, 1, 7, 13]
      { id := "0-6", label := "0-6세", lo := 0, hi := 6, count := 2,
        children := [ { id := "0", label := "0세", lo := 0, hi := 0, count := 1 },
                      { id := "1-6", label := "1-6세", lo := 1, hi := 6, count := 1 } ] }
      (by decide) (by decide)).1

/-- C5: combining a count tree with an empty fever tree yields one node per
visit node, in order, with the visit ids and labels, `feverCount = 0`
everywhere and `totalCount` equal to the visit counts; and for an arbitrary
fever tree `combineCounts` still returns one node per visit node carrying
the visit id, label and count (it never fails on any fever-tree shape). -/
theorem combineCounts_empty_and_total (ages : List ℤ) (visit fever : List GroupBand) :
    combineCounts (buildCounts ages) []
      = (buildCounts ages).map (fun g =>
          { id := g.id, label := g.label, totalCount := g.count, feverCount := 0,
            children := g.children.map (fun c =>
              { id := c.id, label := c.label, totalCount := c.count, feverCount := 0 }) })
    ∧ (combineCounts visit fever).map (fun g =>
          (g.id, g.label, g.totalCount, g.children.map (fun c => (c.id, c.label, c.totalCount))))
        = visit.map (fun g =>
          (g.id, g.label, g.count, g.children.map (fun c => (c.id, c.label, c.count)))) := by
  constructor
  · apply List.map_congr_left
    intro g _
    simp [List.find?_nil]
  · rw [combineCounts, List.map_map]
    apply List.map_congr_left
    intro g _
    simp

/-- Invariant of the `forEach` fold of `findAgesInWorkbook`, for an
arbitrary starting `best`: either no sheet beats the start, or the result
is the first sheet attaining the maximum valid-age count. -/
theorem foldl_stepBest_spec (wb : List Sheet) (b : BestResult) :
    (wb.foldl stepBest b = b ∧ ∀ s ∈ wb, (sheetValidAges s.rows).length ≤ b.count)
    ∨ (∃ i, ∃ hi : i < wb.length,
        wb.foldl stepBest b
          = { ages := sheetValidAges (wb.get ⟨i, hi⟩).rows,
              sheetName := (wb.get ⟨i, hi⟩).name,
              count := (sheetValidAges (wb.get ⟨i, hi⟩).rows).length }
        ∧ b.count < (sheetValidAges (wb.get ⟨i, hi⟩).rows).length
        ∧ (∀ j, ∀ hj : j < wb.length, (sheetValidAges (wb.get ⟨j, hj⟩).rows).length
              ≤ (sheetValidAges (wb.get ⟨i, hi⟩).rows).length)
        ∧ (∀ j, ∀ hj : j < wb.length, j < i →
            (sheetValidAges (wb.get ⟨j, hj⟩).rows).length
              < (sheetValidAges (wb.get ⟨i, hi⟩).rows).length)) := by
  induction wb generalizing b with
  | nil =>
    left
    exact ⟨rfl, by simp⟩
  | cons s rest ih =>
    rw [List.foldl_cons]
    by_cases hcase : b.count < (sheetValidAges s.rows).length
    · have hstep : stepBest b s
          = { ages := sheetValidAges s.rows, sheetName := s.name,
              count := (sheetValidAges s.rows).length } := by
        simp [stepBest, hcase]
      rcases ih (stepBest b s) with ⟨heq, hall⟩ | ⟨i, hi, heq, hgt, hall, hpre⟩
      · right
        refine ⟨0, by simp, ?_, hcase, ?_, ?_⟩
        · rw [heq, hstep]
          rfl
        · intro j hj
          match j with
          | 0 => exact Nat.le_refl _
          | j + 1 =>
            have hj2 : j < rest.length := by simpa using hj
            have hmem := hall (rest.get ⟨j, hj2⟩) (List.get_mem rest j hj2)
            rw [hstep] at hmem
            exact hmem
        · intro j hj hj0
          omega
      · right
        have hi2 : i + 1 < (s :: rest).length := by simpa using hi
        have hgt2 : (sheetValidAges s.rows).length
            < (sheetValidAges (rest.get ⟨i, hi⟩).rows).length := by
          rw [hstep] at hgt
          exact hgt
        refine ⟨i + 1, hi2, ?_, ?_, ?_, ?_⟩
        · exact heq
        · exact Nat.lt_trans hcase hgt2
        · intro j hj
          match j with
          | 0 => exact Nat.le_of_lt hgt2
          | j + 1 =>
            have hj2 : j < rest.length := by simpa using hj
            exact hall j hj2
        · intro j hj hji
          match j with
          | 0 => exact hgt2
          | j + 1 =>
            have hj2 : j < rest.length := by simpa using hj
            exact hpre j hj2 (by omega)
    · have hstep : stepBest b s = b := by
        simp [stepBest, hcase]
      rw [hstep]
      rcases ih b with ⟨heq, hall⟩ | ⟨i, hi, heq, hgt, hall, hpre⟩
      · left
        refine ⟨heq, ?_⟩
        intro t ht
        rcases List.mem_cons.mp ht with rfl | ht2
        · omega
        · exact hall t ht2
      · right
        have hi2 : i + 1 < (s :: rest).length := by simpa using hi
        refine ⟨i + 1, hi2, ?_, ?_, ?_, ?_⟩
        · exact heq
        · exact hgt
        · intro j hj
          match j with
          | 0 => exact Nat.le_of_lt (Nat.lt_of_le_of_lt (Nat.le_of_not_lt hcase) hgt)
          | j + 1 =>
            have hj2 : j < rest.length := by simpa using hj
            exact hall j hj2
        · intro j hj hji
          match j with
          | 0 => exact Nat.lt_of_le_of_lt (Nat.le_of_not_lt hcase) hgt
          | j + 1 =>
            have hj2 : j < rest.length := by simpa using hj
            exact hpre j hj2 (by omega)

/-- C4: `findAgesInWorkbook` returns the valid-age list (column index 3,
ages in `[0,120]`) of the sheet whose list is longest, ties resolved in
favour of the first sheet in document order; if no sheet yields any valid
age it returns `{ages: [], sheetName: '', count: 0}`. -/
theorem findAgesInWorkbook_spec (wb : List Sheet) :
    ((∀ s ∈ wb, sheetValidAges s.rows = []) →
      findAgesInWorkbook wb = { ages := [], sheetName := "", count := 0 })
    ∧ ((∃ s ∈ wb, sheetValidAges s.rows ≠ []) →
      ∃ i, ∃ hi : i < wb.length,
        findAgesInWorkbook wb
          = { ages := sheetValidAges (wb.get ⟨i, hi⟩).rows,
              sheetName := (wb.get ⟨i, hi⟩).name,
              count := (sheetValidAges (wb.get ⟨i, hi⟩).rows).length }
        ∧ 0 < (sheetValidAges (wb.get ⟨i, hi⟩).rows).length
        ∧ (∀ j, ∀ hj : j < wb.length, (sheetValidAges (wb.get ⟨j, hj⟩).rows).length
              ≤ (sheetValidAges (wb.get ⟨i, hi⟩).rows).length)
        ∧ (∀ j, ∀ hj : j < wb.length, j < i →
            (sheetValidAges (wb.get ⟨j, hj⟩).rows).length
              < (sheetValidAges (wb.get ⟨i, hi⟩).rows).length)) := by
  rcases foldl_stepBest_spec wb { ages := [], sheetName := "", count := 0 } with
    ⟨heq, hall⟩ | ⟨i, hi, heq, hgt, hall, hpre⟩
  · constructor
    · intro _
      exact heq
    · intro ⟨s, hs, hne⟩
      exact absurd (List.eq_nil_of_length_eq_zero (Nat.le_zero.mp (hall s hs)))
        hne
  · constructor
    · intro hempty
      have := hall i hi
      have hzero := hempty (wb.get ⟨i, hi⟩) (List.get_mem wb i hi)
      rw [hzero] at hgt
      simp at hgt
    · intro _
      exact ⟨i, hi, heq, hgt, hall, hpre⟩

/-- A concrete two-sheet workbook: sheet `A` holds one valid age in column
index 3, sheet `B` holds two. -/
def sampleWorkbook : List Sheet :=
  [ { name := "A",
      rows := [[CellValue.vNull, CellValue.vNull, CellValue.vNull,
                CellValue.vNum (JSNum.fin (mkRat 3 1))]] },
    { name := "B",
      rows := [[CellValue.vNull, CellValue.vNull, CellValue.vNull,
                CellValue.vNum (JSNum.fin (mkRat 7 1))],
               [CellValue.vNull, CellValue.vNull, CellValue.vNull,
                CellValue.vNum (JSNum.fin (mkRat 8 1))]] } ]

/-- Witness for C4: on `sampleWorkbook` the longer sheet `B` wins. -/
theorem findAgesInWorkbook_spec_witness :
    findAgesInWorkbook sampleWorkbook = { ages := [7, 8], sheetName := "B", count := 2 } := by
  rcases (findAgesInWorkbook_spec sampleWorkbook).2 (by decide) with
    ⟨i, hi, heq, hpos, hall, hpre⟩
  have hlen : sampleWorkbook.length = 2 := by decide
  have hi01 : i = 0 ∨ i = 1 := by omega
  rcases hi01 with rfl | rfl
  · have h21 : (2 : ℕ) ≤ 1 := hall 1 (by decide)
    exact absurd h21 (by decide)
  · rw [heq]
    rfl

theorem matchBuggyAt_head (cs m : List Char) (h : matchBuggyAt cs = some m) :
    ∃ t, m = '\\' :: t := by
  simp only [matchBuggyAt] at h
  split at h
  · split at h
    · exact absurd h (by simp)
    · split at h
      · split at h <;> exact ⟨_, (Option.some.inj h).symm⟩
      · exact ⟨_, (Option.some.inj h).symm⟩
  · exact absurd h (by simp)

theorem firstMatch_pred (P : List Char → Prop) (matchAt : List Char → Option (List Char))
    (hP : ∀ cs m, matchAt cs = some m → P m) :
    ∀ cs m, firstMatch matchAt cs = some m → P m := by
  intro cs
  induction cs with
  | nil =>
    intro m h
    simp only [firstMatch] at h
    exact hP [] m h
  | cons c rest ih =>
    intro m h
    simp only [firstMatch] at h
    cases hma : matchAt (c :: rest) with
    | some m2 =>
      rw [hma] at h
      exact Option.some.inj h ▸ hP _ m2 hma
    | none =>
      rw [hma] at h
      exact ih m h

theorem decValue?_backslash (t : List Char) : decValue? ('\\' :: t) = none := by
  have hd : isDigitCh '\\' = false := by decide
  simp [decValue?, List.takeWhile_cons, hd]

theorem normalizeAge_string_none (s : String) : normalizeAge (CellValue.vStr s) = none := by
  unfold normalizeAge
  by_cases he : (trimChars s.data).isEmpty
  · simp [he]
  · simp only [he, Bool.false_eq_true, if_false]
    cases hm : firstMatch matchBuggyAt (trimChars s.data) with
    | none => rfl
    | some m =>
      obtain ⟨t, rfl⟩ := firstMatch_pred (fun m => ∃ t, m = '\\' :: t) matchBuggyAt
        matchBuggyAt_head (trimChars s.data) m hm
      simp [jsNumber, decValue?_backslash]

/-- C1 (code-bug evidence): the regex literal on `src/App.jsx` line 94 is
written with double backslashes, so it matches a literal backslash, never a
digit; the string branch of `normalizeAge` as shipped in `App.jsx` returns
`null` on every string (in particular on `"45"`), while the same function
in the sibling variants (`src/unnamed/part_000`/`part_001`, single
backslash) returns the floor of the first decimal substring, which is the
behaviour the spec describes. -/
theorem normalizeAge_regex_bug :
    (∀ s : String, normalizeAge (CellValue.vStr s) = none)
    ∧ normalizeAge (CellValue.vStr "45") = none
    ∧ normalizeAgeDec (CellValue.vStr "45") = some 45
    ∧ normalizeAgeDec (CellValue.vStr " 6.9 kg ") = some 6 :=
  ⟨normalizeAge_string_none, normalizeAge_string_none "45", by decide, by decide⟩

/-- Truncation toward zero, as the words of the claim for C2 describe the
numeric branch ("truncated toward zero"); written from the spec, for
comparison with the source's `Math.floor`. -/
def specTruncTowardZero (q : ℚ) : ℤ :=
  if 0 ≤ q then q.floor else -((-q).floor)

/-- C2 counterexample: on `-2.5` the numeric branch of `normalizeAge`
returns `Math.floor(-2.5) = -3`, not the truncation toward zero `-2`
asserted by the claim. -/
theorem normalizeAge_not_trunc_counterexample :
    normalizeAge (CellValue.vNum (JSNum.fin (mkRat (-5) 2))) = some (-3)
    ∧ specTruncTowardZero (mkRat (-5) 2) = -2
    ∧ normalizeAge (CellValue.vNum (JSNum.fin (mkRat (-5) 2)))
        ≠ some (specTruncTowardZero (mkRat (-5) 2)) := by
  refine ⟨by decide, by decide, by decide⟩

/-- C2 (amended): for finite numeric input `q`, `normalizeAge` returns
`⌊q⌋` (the floor, which rounds toward negative infinity on negative
non-integers), and returns `null` on `NaN` and the infinities;
`normalizeAge(6.9) = 6`. -/
theorem normalizeAge_numeric_floor :
    (∀ q : ℚ, normalizeAge (CellValue.vNum (JSNum.fin q)) = some ⌊q⌋)
    ∧ normalizeAge (CellValue.vNum JSNum.nan) = none
    ∧ normalizeAge (CellValue.vNum JSNum.inf) = none
    ∧ normalizeAge (CellValue.vNum JSNum.negInf) = none
    ∧ normalizeAge (CellValue.vNum (JSNum.fin (mkRat 69 10))) = some 6 := by
  refine ⟨fun q => ?_, by decide, by decide, by decide, by decide⟩
  simp [normalizeAge, ratFloor_eq_intFloor]

/-- A local-time calendar date, the `(getFullYear(), getMonth()+1,
getDate())` view of a JS `Date` under a fixed UTC offset (the app's date
arithmetic is pure year/month/day arithmetic, so a fixed offset models it
exactly). -/
structure CivilDate where
  year : ℤ
  month : ℤ
  day : ℤ
  deriving DecidableEq, Repr

/-- Days since the Unix epoch of a civil date (`m ∈ 1..12`); the standard
civil-calendar day-count algorithm, matching ECMAScript `MakeDay`. -/
def daysFromCivil (y m d : ℤ) : ℤ :=
  let y2 := if m ≤ 2 then y - 1 else y
  let era := y2 / 400
  let yoe := y2 - era * 400
  let mp := if 2 < m then m - 3 else m + 9
  let doy := (153 * mp + 2) / 5 + d - 1
  let doe := yoe * 365 + yoe / 4 - yoe / 100 + doy
  era * 146097 + doe - 719468

/-- Year of era (`0..399`) of a day of era (`0..146096`). -/
def yearOfEra (doe : ℤ) : ℤ :=
  (doe - doe / 1460 + doe / 36524 - doe / 146096) / 365

/-- Days before year `y` of an era (`y ∈ 0..400`). -/
def dbY (y : ℤ) : ℤ :=
  365 * y + y / 4 - y / 100

/-- Civil date of day `doe` of era `era`. -/
def civilParts (era doe : ℤ) : CivilDate :=
  let yoe := yearOfEra doe
  let y := yoe + era * 400
  let doy := doe - (365 * yoe + yoe / 4 - yoe / 100)
  let mp := (5 * doy + 2) / 153
  let d := doy - (153 * mp + 2) / 5 + 1
  let m := if mp < 10 then mp + 3 else mp - 9
  { year := if m ≤ 2 then y + 1 else y, month := m, day := d }

/-- Civil date of an epoch day count; inverse of `daysFromCivil` (proved in
`civilFromDays_roundtrip`).  `/` and `%` on `ℤ` are Euclidean division,
which agrees with floor division for the positive divisors used here. -/
def civilFromDays (z : ℤ) : CivilDate :=
  let z2 := z + 719468
  let era := z2 / 146097
  civilParts era (z2 - era * 146097)

/-- JS `Date.prototype.getDay` on an epoch day: `0 =` Sunday; the epoch
(1970-01-01) was a Thursday. -/
def dayOfWeek (z : ℤ) : ℤ :=
  (z + 4) % 7

/-- `new Date(year, monthIndex, day)` reduced to its epoch day: years
`0..99` are offset by 1900 (ECMAScript), out-of-range month indices and
days roll over arithmetically. -/
def mkJSDate (year mIdx day : ℤ) : ℤ :=
  let y := if 0 ≤ year ∧ year ≤ 99 then year + 1900 else year
  let tm := y * 12 + mIdx
  daysFromCivil (tm / 12) (tm % 12 + 1) 1 + (day - 1)

/-- JS `String.prototype.split('-')` on a character list. -/
def splitDash : List Char → List (List Char)
  | [] => [[]]
  | c :: rest =>
    let r := splitDash rest
    if c = '-' then [] :: r
    else
      match r with
      | h :: t => (c :: h) :: t
      | [] => [[c]]

/-- JS `Number()` restricted to the `split('-')` components reachable in
`parseDateString` (digit runs, or garbage that `Number` maps to `NaN`):
a non-empty all-digit string evaluates to its value, everything else to
`NaN` (`none`).  (`Number('')` is `0`, which the caller's `!year` test
rejects exactly like `NaN`, so mapping it to `none` is outcome-faithful.) -/
def toNumber? (cs : List Char) : Option ℕ :=
  if cs ≠ [] ∧ cs.all isDigitCh then some (digitsVal cs) else none

/-- `parseDateString` (`src/App.jsx` lines 46–59): split on `-`, reject
falsy components, construct the date and require the year/month/day fields
to round-trip exactly. -/
def parseDateString (value : String) : Option ℤ :=
  if value = "" then none
  else
    let parts := splitDash value.data
    match toNumber? (parts.getD 0 []), toNumber? (parts.getD 1 []),
        toNumber? (parts.getD 2 []) with
    | some y, some m, some d =>
      if y = 0 ∨ m = 0 ∨ d = 0 then none
      else
        let ep := mkJSDate (y : ℤ) ((m : ℤ) - 1) (d : ℤ)
        let c := civilFromDays ep
        if c.year ≠ (y : ℤ) ∨ c.month - 1 ≠ (m : ℤ) - 1 ∨ c.day ≠ (d : ℤ) then none
        else some ep
    | _, _, _ => none

/-- `String(month).padStart(2, '0')` for the positive fields produced by
`formatDate`. -/
def pad2 (n : ℤ) : String :=
  let s := toString n
  if s.length = 1 then "0" ++ s else s

/-- `formatDate` (`src/App.jsx` lines 61–66). -/
def formatDate (z : ℤ) : String :=
  let c := civilFromDays z
  toString c.year ++ "-" ++ pad2 c.month ++ "-" ++ pad2 c.day

/-- `getWeekStartMonday` (`src/App.jsx` lines 68–74): step back
`(getDay() + 6) % 7` days. -/
def getWeekStartMonday (z : ℤ) : ℤ :=
  z - (dayOfWeek z + 6) % 7

/-- `buildExpectedWeekDates` (`src/App.jsx` lines 76–84): the six dates
Monday .. Monday+5. -/
def buildExpectedWeekDates (monday : ℤ) : List String :=
  (List.range 6).map (fun offset => formatDate (monday + (offset : ℤ)))

example : parseDateString "2024-06-12" = some 19886 := by decide
example : parseDateString "2024-02-30" = none := by decide
example : parseDateString "2024-13-01" = none := by decide
example : formatDate 19886 = "2024-06-12" := by decide
example : dayOfWeek 19886 = 3 := by decide
example : getWeekStartMonday 19886 = 19884 := by decide
example : civilFromDays (mkJSDate 2024 1 30) = { year := 2024, month := 3, day := 1 } := by decide

/-- Check a boolean predicate on the `len` naturals starting at `lo`,
splitting the range in half so kernel evaluation has logarithmic depth. -/
def checkRange (p : ℕ → Bool) : ℕ → ℕ → ℕ → Bool
  | 0, _, len => decide (len = 0)
  | fuel + 1, lo, len =>
    if len = 0 then true
    else if len = 1 then p lo
    else
      checkRange p fuel lo (len / 2) && checkRange p fuel (lo + len / 2) (len - len / 2)

theorem checkRange_sound (p : ℕ → Bool) :
    ∀ fuel lo len, checkRange p fuel lo len = true →
      ∀ i, lo ≤ i → i < lo + len → p i = true := by
  intro fuel
  induction fuel with
  | zero =>
    intro lo len h i hi1 hi2
    simp only [checkRange, decide_eq_true_eq] at h
    omega
  | succ fuel ih =>
    intro lo len h i hi1 hi2
    simp only [checkRange] at h
    split_ifs at h with hz hone
    · omega
    · have : i = lo := by omega
      subst this
      exact h
    · rw [Bool.and_eq_true] at h
      by_cases hcase : i < lo + len / 2
      · exact ih lo (len / 2) h.1 i hi1 hcase
      · exact ih (lo + len / 2) (len - len / 2) h.2 i (by omega) (by omega)

/-- Endpoint check for `yearOfEra`: at the first and last day of every year
of the era the formula returns that year. -/
def pYear (n : ℕ) : Bool :=
  decide (yearOfEra (dbY (n : ℤ)) = (n : ℤ))
    && decide (yearOfEra (if n = 399 then 146096 else dbY ((n : ℤ) + 1) - 1) = (n : ℤ))

theorem pYear_all (n : ℕ) (h : n < 400) : pYear n = true :=
  checkRange_sound pYear 10 0 400 (by decide) n (Nat.zero_le n) (by omega)

theorem yearOfEra_mono (a b : ℤ) (h : a ≤ b) : yearOfEra a ≤ yearOfEra b := by
  unfold yearOfEra
  have h1 : a - a / 1460 ≤ b - b / 1460 := by omega
  have h2 : a / 36524 ≤ b / 36524 := Int.ediv_le_ediv (by norm_num) h
  have h3 : a / 36524 - a / 36524 / 4 ≤ b / 36524 - b / 36524 / 4 := by omega
  have h4 : a / 36524 / 4 = a / 146096 := by omega
  have h5 : b / 36524 / 4 = b / 146096 := by omega
  have h6 : a - a / 1460 + a / 36524 - a / 146096
      ≤ b - b / 1460 + b / 36524 - b / 146096 := by omega
  exact Int.ediv_le_ediv (by norm_num) h6

theorem yearOfEra_sandwich (doe : ℤ) (h0 : 0 ≤ doe) (h1 : doe ≤ 146096) :
    0 ≤ yearOfEra doe ∧ yearOfEra doe ≤ 399 ∧ dbY (yearOfEra doe) ≤ doe
      ∧ (doe < dbY (yearOfEra doe + 1) ∨ yearOfEra doe = 399) := by
  have h00 : yearOfEra 0 = 0 := by decide
  have hlast : yearOfEra 146096 = 399 := by decide
  have hb0 : 0 ≤ yearOfEra doe := by
    have := yearOfEra_mono 0 doe h0
    omega
  have hb399 : yearOfEra doe ≤ 399 := by
    have := yearOfEra_mono doe 146096 h1
    omega
  refine ⟨hb0, hb399, ?_, ?_⟩
  · by_contra hlow
    push_neg at hlow
    by_cases hb : yearOfEra doe = 0
    · have hdb0 : dbY 0 = 0 := by decide
      rw [hb, hdb0] at hlow
      omega
    · have hn : ((yearOfEra doe - 1).toNat : ℤ) = yearOfEra doe - 1 := by omega
      have hp := pYear_all (yearOfEra doe - 1).toNat (by omega)
      simp only [pYear, Bool.and_eq_true, decide_eq_true_eq] at hp
      have hne : (yearOfEra doe - 1).toNat ≠ 399 := by omega
      rw [if_neg hne, hn] at hp
      have hsimp : yearOfEra doe - 1 + 1 = yearOfEra doe := by ring
      rw [hsimp] at hp
      have hend : yearOfEra (dbY (yearOfEra doe) - 1) = yearOfEra doe - 1 := hp.2
      have hmono := yearOfEra_mono doe (dbY (yearOfEra doe) - 1) (by omega)
      omega
  · by_cases hb : yearOfEra doe = 399
    · right
      exact hb
    · left
      by_contra hup
      push_neg at hup
      have hn : (((yearOfEra doe) + 1).toNat : ℤ) = yearOfEra doe + 1 := by omega
      have hp := pYear_all ((yearOfEra doe) + 1).toNat (by omega)
      simp only [pYear, Bool.and_eq_true, decide_eq_true_eq] at hp
      rw [hn] at hp
      have hstart : yearOfEra (dbY (yearOfEra doe + 1)) = yearOfEra doe + 1 := hp.1
      have hmono := yearOfEra_mono (dbY (yearOfEra doe + 1)) doe hup
      omega

theorem civilParts_spec (era doe : ℤ) (h0 : 0 ≤ doe) (h1 : doe ≤ 146096) :
    daysFromCivil (civilParts era doe).year (civilParts era doe).month (civilParts era doe).day
        = era * 146097 + doe - 719468
    ∧ 1 ≤ (civilParts era doe).month ∧ (civilParts era doe).month ≤ 12
    ∧ 1 ≤ (civilParts era doe).day ∧ (civilParts era doe).day ≤ 31 := by
  obtain ⟨hb0, hb399, hlow, hup⟩ := yearOfEra_sandwich doe h0 h1
  unfold dbY at hlow hup
  simp only [civilParts, daysFromCivil]
  set b := yearOfEra doe with hbdef
  set doy := doe - (365 * b + b / 4 - b / 100) with hdoydef
  have hdoy : 0 ≤ doy ∧ doy ≤ 365 := by
    rcases hup with hup | hup
    · constructor <;> omega
    · rw [hup] at hlow hdoydef
      constructor <;> omega
  set mp := (5 * doy + 2) / 153 with hmpdef
  set d := doy - (153 * mp + 2) / 5 + 1 with hddef
  have hmp : 0 ≤ mp ∧ mp ≤ 11 := by omega
  have hd : 1 ≤ d ∧ d ≤ 31 := by omega
  by_cases hm10 : mp < 10
  · -- m = mp + 3 ∈ [3, 12]; the civil year is not adjusted
    rw [if_pos hm10]
    have hm2 : ¬(mp + 3 ≤ 2) := by omega
    rw [if_neg hm2, if_neg hm2]
    have h23 : 2 < mp + 3 := by omega
    rw [if_pos h23]
    have hsub : mp + 3 - 3 = mp := by ring
    rw [hsub]
    refine ⟨?_, by omega, by omega, by omega, by omega⟩
    have hera : (b + era * 400) / 400 = era := by omega
    rw [hera]
    rw [(by ring : b + era * 400 - era * 400 = b)]
    omega
  · -- m = mp - 9 ∈ [1, 2]; the civil year is adjusted up and back
    rw [if_neg hm10]
    have hm2 : mp - 9 ≤ 2 := by omega
    rw [if_pos hm2, if_pos hm2]
    have h23 : ¬(2 < mp - 9) := by omega
    rw [if_neg h23]
    have hsub : mp - 9 + 9 = mp := by ring
    rw [hsub]
    have hcancel : b + era * 400 + 1 - 1 = b + era * 400 := by ring
    rw [hcancel]
    refine ⟨?_, by omega, by omega, by omega, by omega⟩
    have hera : (b + era * 400) / 400 = era := by omega
    rw [hera]
    rw [(by ring : b + era * 400 - era * 400 = b)]
    omega

/-- The civil fields extracted from an epoch day reconstruct that day, with
the month in `1..12` and the day in `1..31`. -/
theorem civilFromDays_roundtrip (z : ℤ) :
    daysFromCivil (civilFromDays z).year (civilFromDays z).month (civilFromDays z).day = z
    ∧ 1 ≤ (civilFromDays z).month ∧ (civilFromDays z).month ≤ 12
    ∧ 1 ≤ (civilFromDays z).day ∧ (civilFromDays z).day ≤ 31 := by
  simp only [civilFromDays]
  have h0 : 0 ≤ (z + 719468) - (z + 719468) / 146097 * 146097 := by omega
  have h1 : (z + 719468) - (z + 719468) / 146097 * 146097 ≤ 146096 := by omega
  have hc := civilParts_spec ((z + 719468) / 146097)
    ((z + 719468) - (z + 719468) / 146097 * 146097) h0 h1
  have hz : (z + 719468) / 146097 * 146097
      + ((z + 719468) - (z + 719468) / 146097 * 146097) - 719468 = z := by ring
  rw [hz] at hc
  exact hc

theorem daysFromCivil_day_shift (y m d : ℤ) :
    daysFromCivil y m d = daysFromCivil y m 1 + (d - 1) := by
  simp only [daysFromCivil]
  split_ifs <;> ring

/-- `new Date(d.getFullYear(), d.getMonth(), d.getDate() + k)` lands `k`
days after `d` — provided the civil year is outside `0..99`, where the
constructor's 1900 offset applies instead. -/
theorem mkJSDate_civil_add (z k : ℤ)
    (hy : ¬(0 ≤ (civilFromDays z).year ∧ (civilFromDays z).year ≤ 99)) :
    mkJSDate (civilFromDays z).year ((civilFromDays z).month - 1) ((civilFromDays z).day + k)
      = z + k := by
  obtain ⟨hrt, hm1, hm2, hd1, hd2⟩ := civilFromDays_roundtrip z
  simp only [mkJSDate]
  rw [if_neg hy]
  have ha : ((civilFromDays z).year * 12 + ((civilFromDays z).month - 1)) / 12
      = (civilFromDays z).year := by omega
  have hb : ((civilFromDays z).year * 12 + ((civilFromDays z).month - 1)) % 12 + 1
      = (civilFromDays z).month := by omega
  rw [ha, hb]
  have hshift := daysFromCivil_day_shift (civilFromDays z).year (civilFromDays z).month
    (civilFromDays z).day
  omega

/-- Case-insensitive match of the extension alternatives `(xlsx|xls)` of
`buildFileRegex` (the regex carries the `i` flag). -/
def extMatches (cs : List Char) : Bool :=
  cs.map Char.toLower == ['x', 'l', 's', 'x'] || cs.map Char.toLower == ['x', 'l', 's']

/-- The anchored regex built by `buildFileRegex(suffix)`
(`src/App.jsx` lines 42–44): `^(\d{4}-\d{2}-\d{2})_suffix\.(xlsx|xls)$`,
case-insensitive.  Returns capture group 1 (the `YYYY-MM-DD` text) on a
match.  The app's two suffixes (`총환자수`, `발열환자수`) contain no cased
letters, so the `i` flag only affects the extension. -/
def matchFileRegex (suffix name : String) : Option String :=
  match name.data with
  | y1 :: y2 :: y3 :: y4 :: h1 :: m1 :: m2 :: h2 :: d1 :: d2 :: rest =>
    if ([y1, y2, y3, y4, m1, m2, d1, d2].all isDigitCh) && h1 == '-' && h2 == '-' then
      match rest with
      | '_' :: rest2 =>
        if suffix.data.isPrefixOf rest2 then
          match rest2.drop suffix.data.length with
          | '.' :: ext =>
            if extMatches ext then
              some (String.mk [y1, y2, y3, y4, '-', m1, m2, '-', d1, d2])
            else none
          | _ => none
        else none
      | _ => none
    else none
  | _ => none

/-- The three mutually exclusive per-file name outcomes of
`handleUploadFiles` (`''`, `'pattern'`, `'date'`). -/
inductive NameIssue where
  | noIssue
  | pattern
  | date
  deriving DecidableEq, Repr

/-- The name-classification step of `handleUploadFiles`
(`src/App.jsx` lines 325–338): match the filename against the suffix
regex; on a match keep the date string and check it against
`parseDateString`; classification and the retained `dateString`. -/
def classifyFile (suffix name : String) : NameIssue × Option String :=
  match matchFileRegex suffix name with
  | some ds =>
    match parseDateString ds with
    | some _ => (NameIssue.noIssue, some ds)
    | none => (NameIssue.date, some ds)
  | none => (NameIssue.pattern, none)

example : classifyFile "총환자수" "report_총환자수.xlsx" = (NameIssue.pattern, none) := by decide
example : classifyFile "총환자수" "2024-02-30_총환자수.xlsx"
    = (NameIssue.date, some "2024-02-30") := by decide
example : classifyFile "총환자수" "2024-06-12_총환자수.XLS"
    = (NameIssue.noIssue, some "2024-06-12") := by decide

/-- C6 counterexample: in the (leap) year 2024 the constructed date for
`(2024, 1, 30)` — February 30 — rolls over to March 1, not to March 2 as
the claim's example asserts. -/
theorem feb30_2024_rolls_to_mar1 :
    civilFromDays (mkJSDate 2024 1 30) = { year := 2024, month := 3, day := 1 }
    ∧ civilFromDays (mkJSDate 2024 1 30) ≠ { year := 2024, month := 3, day := 2 } := by
  constructor
  · decide
  · decide

/-- C6 (amended): every uploaded filename gets exactly one of the three
outcomes in priority order — `pattern` iff the suffix regex does not match,
`date` iff the regex matches but the date fails the construct-and-round-trip
check, no issue otherwise with the extracted date being the matched
`YYYY-MM-DD` string — and on `2024-02-30_총환자수.xlsx` the date check fails
because Feb 30 rolls over (to March 1, 2024 being a leap year). -/
theorem classifyFile_trichotomy :
    (∀ suffix name, (classifyFile suffix name).2 = matchFileRegex suffix name)
    ∧ (∀ suffix name, (classifyFile suffix name).1 = NameIssue.pattern
        ↔ matchFileRegex suffix name = none)
    ∧ (∀ suffix name, (classifyFile suffix name).1 = NameIssue.date
        ↔ ∃ ds, matchFileRegex suffix name = some ds ∧ parseDateString ds = none)
    ∧ (∀ suffix name, (classifyFile suffix name).1 = NameIssue.noIssue
        ↔ ∃ ds, matchFileRegex suffix name = some ds ∧ parseDateString ds ≠ none)
    ∧ classifyFile "총환자수" "report_총환자수.xlsx" = (NameIssue.pattern, none)
    ∧ classifyFile "총환자수" "2024-02-30_총환자수.xlsx" = (NameIssue.date, some "2024-02-30")
    ∧ classifyFile "총환자수" "2024-06-12_총환자수.xlsx"
        = (NameIssue.noIssue, some "2024-06-12")
    ∧ civilFromDays (mkJSDate 2024 1 30) = { year := 2024, month := 3, day := 1 } := by
  refine ⟨?_, ?_, ?_, ?_, by decide, by decide, by decide, by decide⟩
  · intro suffix name
    cases hm : matchFileRegex suffix name with
    | none => simp [classifyFile, hm]
    | some ds => cases hp : parseDateString ds <;> simp [classifyFile, hm, hp]
  · intro suffix name
    cases hm : matchFileRegex suffix name with
    | none => simp [classifyFile, hm]
    | some ds => cases hp : parseDateString ds <;> simp [classifyFile, hm, hp]
  · intro suffix name
    cases hm : matchFileRegex suffix name with
    | none => simp [classifyFile, hm]
    | some ds => cases hp : parseDateString ds <;> simp [classifyFile, hm, hp]
  · intro suffix name
    cases hm : matchFileRegex suffix name with
    | none => simp [classifyFile, hm]
    | some ds => cases hp : parseDateString ds <;> simp [classifyFile, hm, hp]

/-- Lexicographic comparison of character lists: the JS default
`Array.prototype.sort()` comparator on the (ASCII) `YYYY-MM-DD` strings the
app sorts (JS compares UTF-16 code units; on such strings that is exactly
code-point order). -/
def charListLe : List Char → List Char → Bool
  | [], _ => true
  | _ :: _, [] => false
  | a :: as, b :: bs => if a < b then true else if b < a then false else charListLe as bs

/-- The JS default string comparator as a `String` relation. -/
def strLe (a b : String) : Bool :=
  charListLe a.data b.data

theorem charListLe_trans : ∀ a b c : List Char,
    charListLe a b = true → charListLe b c = true → charListLe a c = true
  | [], _, _, _, _ => by simp [charListLe]
  | _ :: _, [], _, h1, _ => by simp [charListLe] at h1
  | _ :: _, _ :: _, [], _, h2 => by simp [charListLe] at h2
  | x :: as, y :: bs, z :: cs, h1, h2 => by
    simp only [charListLe] at h1 h2 ⊢
    by_cases hxy : x < y
    · by_cases hyz : y < z
      · simp [lt_trans hxy hyz]
      · by_cases hzy : z < y
        · simp [hyz, hzy] at h2
        · have heq : y = z := le_antisymm (not_lt.mp hzy) (not_lt.mp hyz)
          subst heq
          simp [hxy]
    · by_cases hyx : y < x
      · simp [hxy, hyx] at h1
      · have heq : x = y := le_antisymm (not_lt.mp hyx) (not_lt.mp hxy)
        subst heq
        simp only [if_neg hxy, if_neg hyx] at h1
        by_cases hxz : x < z
        · simp [hxz]
        · by_cases hzx : z < x
          · simp [hxz, hzx] at h2
          · simp only [if_neg hxz, if_neg hzx] at h2 ⊢
            exact charListLe_trans as bs cs h1 h2

theorem charListLe_total : ∀ a b : List Char, (charListLe a b || charListLe b a) = true
  | [], _ => by simp [charListLe]
  | _ :: _, [] => by simp [charListLe]
  | x :: as, y :: bs => by
    simp only [charListLe]
    by_cases hxy : x < y
    · simp [hxy]
    · by_cases hyx : y < x
      · simp [hxy, hyx]
      · simp only [if_neg hxy, if_neg hyx]
        exact charListLe_total as bs

theorem strLe_trans (a b c : String) (h1 : strLe a b = true) (h2 : strLe b c = true) :
    strLe a c = true :=
  charListLe_trans a.data b.data c.data h1 h2

theorem strLe_total (a b : String) : (strLe a b || strLe b a) = true :=
  charListLe_total a.data b.data

/-- Insert into a sorted list (the helper of `jsSort`). -/
def insertLe {α : Type} (le : α → α → Bool) (a : α) : List α → List α
  | [] => [a]
  | b :: bs => if le a b then a :: b :: bs else b :: insertLe le a bs

/-- Sorting with a comparator, modelling `Array.prototype.sort`: JS
guarantees a stably sorted result for a consistent comparator, and the
claims below depend only on the ordering, proved in `jsSort_perm` and
`jsSort_sorted`.  (Insertion sort is used because it is structurally
recursive, hence kernel-computable.) -/
def jsSort {α : Type} (le : α → α → Bool) (l : List α) : List α :=
  l.foldr (insertLe le) []

theorem insertLe_perm {α : Type} (le : α → α → Bool) (a : α) (l : List α) :
    (insertLe le a l).Perm (a :: l) := by
  induction l with
  | nil => simp [insertLe]
  | cons b bs ih =>
    simp only [insertLe]
    split
    · exact List.Perm.refl _
    · exact (ih.cons b).trans (List.Perm.swap a b bs)

theorem jsSort_perm {α : Type} (le : α → α → Bool) (l : List α) : (jsSort le l).Perm l := by
  induction l with
  | nil => exact List.Perm.refl _
  | cons a as ih => exact (insertLe_perm le a (jsSort le as)).trans (ih.cons a)

theorem insertLe_sorted {α : Type} (le : α → α → Bool)
    (htrans : ∀ a b c, le a b = true → le b c = true → le a c = true)
    (htot : ∀ a b, (le a b || le b a) = true)
    (a : α) (l : List α) (h : l.Pairwise (fun x y => le x y = true)) :
    (insertLe le a l).Pairwise (fun x y => le x y = true) := by
  induction l with
  | nil => simp [insertLe]
  | cons b bs ih =>
    rcases List.pairwise_cons.mp h with ⟨hb, hbs⟩
    simp only [insertLe]
    by_cases hab : le a b = true
    · rw [if_pos hab]
      refine List.pairwise_cons.mpr ⟨?_, h⟩
      intro x hx
      rcases List.mem_cons.mp hx with rfl | hx2
      · exact hab
      · exact htrans a b x hab (hb x hx2)
    · rw [if_neg hab]
      have hba : le b a = true := by
        have := htot a b
        rcases Bool.or_eq_true_iff.mp this with h1 | h1
        · exact absurd h1 hab
        · exact h1
      refine List.pairwise_cons.mpr ⟨?_, ih hbs⟩
      intro x hx
      rcases List.mem_cons.mp ((insertLe_perm le a bs).mem_iff.mp hx) with rfl | hx2
      · exact hba
      · exact hb x hx2

theorem jsSort_sorted {α : Type} (le : α → α → Bool)
    (htrans : ∀ a b c, le a b = true → le b c = true → le a c = true)
    (htot : ∀ a b, (le a b || le b a) = true) (l : List α) :
    (jsSort le l).Pairwise (fun x y => le x y = true) := by
  induction l with
  | nil => simp [jsSort]
  | cons a as ih => exact insertLe_sorted le htrans htot a (jsSort le as) ih

/-- The result record of `analyzeWeekDates`. -/
structure WeekCheck where
  weekStart : String
  weekEnd : String
  missingDays : List String
  outOfRange : List String
  deriving DecidableEq, Repr

/-- `Array.from(new Set(xs))`: deduplication keeping the first occurrence
of each element, in insertion order. -/
def uniqueFirst (l : List String) : List String :=
  l.foldl (fun acc a => if a ∈ acc then acc else acc ++ [a]) []

/-- `analyzeWeekDates` (`src/App.jsx` lines 235–256).  The `sort` of the
parsed dates uses the numeric comparator `(a, b) => a - b`; `outOfRange`
is sorted with the default string comparator (`strLe`).  The `[]` match arm
is unreachable: the sorted list is a permutation of the non-empty parsed
list. -/
def analyzeWeekDates (dateStrings : List String) : Option WeekCheck :=
  let uniqueDates := uniqueFirst dateStrings
  if uniqueDates.isEmpty then none
  else
    let parsedDates := uniqueDates.filterMap parseDateString
    if parsedDates.isEmpty then none
    else
      match jsSort (fun a b => decide (a ≤ b)) parsedDates with
      | [] => none
      | e :: _ =>
        let weekStart := getWeekStartMonday e
        let expectedDates := buildExpectedWeekDates weekStart
        let missingDays := expectedDates.filter (fun v => !(uniqueDates.contains v))
        let outOfRange := uniqueDates.filter (fun v => !(expectedDates.contains v))
        let c := civilFromDays weekStart
        some { weekStart := formatDate weekStart,
               weekEnd := formatDate (mkJSDate c.year (c.month - 1) (c.day + 5)),
               missingDays := missingDays,
               outOfRange := jsSort strLe outOfRange }

example : analyzeWeekDates ["2024-06-12"]
    = some { weekStart := "2024-06-10", weekEnd := "2024-06-15",
             missingDays := ["2024-06-10", "2024-06-11", "2024-06-13",
                             "2024-06-14", "2024-06-15"],
             outOfRange := [] } := by decide
example : parseDateString "0100-01-01" = some (-683003) := by decide
example : (analyzeWeekDates ["0100-01-01"]).map (fun wc => (wc.weekStart, wc.weekEnd))
    = some ("99-12-28", "2000-01-02") := by decide
example : formatDate (getWeekStartMonday (-683003) + 5) = "100-01-02" := by decide

theorem intLeB_trans (a b c : ℤ) (h1 : decide (a ≤ b) = true) (h2 : decide (b ≤ c) = true) :
    decide (a ≤ c) = true := by
  simp only [decide_eq_true_eq] at h1 h2 ⊢
  omega

theorem intLeB_total (a b : ℤ) : (decide (a ≤ b) || decide (b ≤ a)) = true := by
  rcases le_total a b with h | h <;> simp [h]

/-- C7 counterexample: `analyzeWeekDates(["0100-01-01"])` computes its
Monday in civil year 99, where the `Date(year, month, day)` constructor's
0–99 → 1900+ rule applies, so `weekEnd` is `"2000-01-02"` rather than week
start plus five days (`"100-01-02"`). -/
theorem analyzeWeekDates_weekEnd_counterexample :
    parseDateString "0100-01-01" = some (-683003)
    ∧ (analyzeWeekDates ["0100-01-01"]).map (fun wc => wc.weekStart) = some "99-12-28"
    ∧ (analyzeWeekDates ["0100-01-01"]).map (fun wc => wc.weekEnd) = some "2000-01-02"
    ∧ formatDate (getWeekStartMonday (-683003) + 5) = "100-01-02"
    ∧ (analyzeWeekDates ["0100-01-01"]).map (fun wc => wc.weekEnd)
        ≠ some (formatDate (getWeekStartMonday (-683003) + 5)) := by
  refine ⟨by decide, by decide, by decide, by decide, by decide⟩

/-- C7 (amended): `analyzeWeekDates` returns `null` exactly when the
deduplicated input is empty or no element parses; otherwise `weekStart` is
the Monday of the earliest parsed date, `missingDays` lists the expected
Monday–Saturday dates absent from the input in ascending (window) order,
`outOfRange` is the out-of-window input dates sorted ascending, and —
whenever the computed Monday's civil year is outside `0..99` (inside that
range the JS `Date` constructor's 1900-year rule makes `weekEnd` jump to
the 20th century) — `weekEnd` is `weekStart` plus 5 days; on
`["2024-06-12"]` the result is exactly the record the claim lists. -/
theorem analyzeWeekDates_spec :
    (∀ ds : List String,
      (analyzeWeekDates ds = none ↔
        uniqueFirst ds = [] ∨ (uniqueFirst ds).filterMap parseDateString = [])
      ∧ ∀ wc, analyzeWeekDates ds = some wc →
          ∃ e, e ∈ (uniqueFirst ds).filterMap parseDateString
            ∧ (∀ x ∈ (uniqueFirst ds).filterMap parseDateString, e ≤ x)
            ∧ wc.weekStart = formatDate (getWeekStartMonday e)
            ∧ (¬(0 ≤ (civilFromDays (getWeekStartMonday e)).year
                  ∧ (civilFromDays (getWeekStartMonday e)).year ≤ 99) →
                wc.weekEnd = formatDate (getWeekStartMonday e + 5))
            ∧ wc.missingDays = (buildExpectedWeekDates (getWeekStartMonday e)).filter
                (fun v => !((uniqueFirst ds).contains v))
            ∧ wc.outOfRange.Perm ((uniqueFirst ds).filter
                (fun v => !((buildExpectedWeekDates (getWeekStartMonday e)).contains v)))
            ∧ wc.outOfRange.Pairwise (fun a b => strLe a b = true))
    ∧ analyzeWeekDates ["2024-06-12"]
        = some { weekStart := "2024-06-10", weekEnd := "2024-06-15",
                 missingDays := ["2024-06-10", "2024-06-11", "2024-06-13",
                                 "2024-06-14", "2024-06-15"],
                 outOfRange := [] } := by
  refine ⟨?_, by decide⟩
  intro ds
  constructor
  · unfold analyzeWeekDates
    by_cases h1 : (uniqueFirst ds).isEmpty
    · simp only [h1, if_true]
      simp [List.isEmpty_iff.mp h1]
    · by_cases h2 : ((uniqueFirst ds).filterMap parseDateString).isEmpty
      · simp only [h1, h2, Bool.false_eq_true, if_false, if_true]
        simp [List.isEmpty_iff.mp h2]
      · have hperm := jsSort_perm (fun a b : ℤ => decide (a ≤ b))
          ((uniqueFirst ds).filterMap parseDateString)
        cases hs : jsSort (fun a b : ℤ => decide (a ≤ b))
            ((uniqueFirst ds).filterMap parseDateString) with
        | nil =>
          rw [hs] at hperm
          have : (uniqueFirst ds).filterMap parseDateString = [] := hperm.symm.eq_nil
          rw [this] at h2
          simp at h2
        | cons e rest =>
          simp only [h1, h2, Bool.false_eq_true, if_false, hs]
          constructor
          · intro hcontra
            simp at hcontra
          · intro hcontra
            rcases hcontra with hc | hc
            · rw [hc] at h1
              simp at h1
            · rw [hc] at h2
              simp at h2
  · intro wc hwc
    unfold analyzeWeekDates at hwc
    by_cases h1 : (uniqueFirst ds).isEmpty
    · rw [if_pos h1] at hwc
      exact absurd hwc (by simp)
    · rw [if_neg h1] at hwc
      by_cases h2 : ((uniqueFirst ds).filterMap parseDateString).isEmpty
      · rw [if_pos h2] at hwc
        exact absurd hwc (by simp)
      · rw [if_neg h2] at hwc
        have hperm := jsSort_perm (fun a b : ℤ => decide (a ≤ b))
          ((uniqueFirst ds).filterMap parseDateString)
        have hsorted := jsSort_sorted (fun a b : ℤ => decide (a ≤ b))
          intLeB_trans intLeB_total ((uniqueFirst ds).filterMap parseDateString)
        cases hs : jsSort (fun a b : ℤ => decide (a ≤ b))
            ((uniqueFirst ds).filterMap parseDateString) with
        | nil =>
          rw [hs] at hwc
          exact absurd hwc (by simp)
        | cons e rest =>
          rw [hs] at hwc hperm hsorted
          have hwc2 := (Option.some.inj hwc).symm
          refine ⟨e, ?_, ?_, ?_, ?_, ?_, ?_, ?_⟩
          · exact hperm.subset (List.mem_cons_self e rest)
          · intro x hx
            have hxs : x ∈ e :: rest := hperm.symm.subset hx
            rcases List.mem_cons.mp hxs with rfl | hxr
            · exact le_refl x
            · have := (List.pairwise_cons.mp hsorted).1 x hxr
              simpa using this
          · rw [hwc2]
          · intro hy
            rw [hwc2]
            simp only []
            rw [mkJSDate_civil_add (getWeekStartMonday e) 5 hy]
          · rw [hwc2]
          · rw [hwc2]
            exact jsSort_perm strLe _
          · rw [hwc2]
            exact jsSort_sorted strLe strLe_trans strLe_total _

/-- Witness for C7 at the concrete input `["2024-06-12"]`. -/
theorem analyzeWeekDates_spec_witness :
    ∃ e, e ∈ (uniqueFirst ["2024-06-12"]).filterMap parseDateString
      ∧ (∀ x ∈ (uniqueFirst ["2024-06-12"]).filterMap parseDateString, e ≤ x)
      ∧ ({ weekStart := "2024-06-10", weekEnd := "2024-06-15",
           missingDays := ["2024-06-10", "2024-06-11", "2024-06-13",
                           "2024-06-14", "2024-06-15"],
           outOfRange := [] } : WeekCheck).weekStart = formatDate (getWeekStartMonday e)
      ∧ (¬(0 ≤ (civilFromDays (getWeekStartMonday e)).year
            ∧ (civilFromDays (getWeekStartMonday e)).year ≤ 99) →
          ({ weekStart := "2024-06-10", weekEnd := "2024-06-15",
             missingDays := ["2024-06-10", "2024-06-11", "2024-06-13",
                             "2024-06-14", "2024-06-15"],
             outOfRange := [] } : WeekCheck).weekEnd
            = formatDate (getWeekStartMonday e + 5))
      ∧ ({ weekStart := "2024-06-10", weekEnd := "2024-06-15",
           missingDays := ["2024-06-10", "2024-06-11", "2024-06-13",
                           "2024-06-14", "2024-06-15"],
           outOfRange := [] } : WeekCheck).missingDays
          = (buildExpectedWeekDates (getWeekStartMonday e)).filter
              (fun v => !((uniqueFirst ["2024-06-12"]).contains v))
      ∧ ({ weekStart := "2024-06-10", weekEnd := "2024-06-15",
           missingDays := ["2024-06-10", "2024-06-11", "2024-06-13",
                           "2024-06-14", "2024-06-15"],
           outOfRange := [] } : WeekCheck).outOfRange.Perm
            ((uniqueFirst ["2024-06-12"]).filter
              (fun v => !((buildExpectedWeekDates (getWeekStartMonday e)).contains v)))
      ∧ ({ weekStart := "2024-06-10", weekEnd := "2024-06-15",
           missingDays := ["2024-06-10", "2024-06-11", "2024-06-13",
                           "2024-06-14", "2024-06-15"],
           outOfRange := [] } : WeekCheck).outOfRange.Pairwise
            (fun a b => strLe a b = true) :=
  (analyzeWeekDates_spec.1 ["2024-06-12"]).2
    { weekStart := "2024-06-10", weekEnd := "2024-06-15",
      missingDays := ["2024-06-10", "2024-06-11", "2024-06-13",
                      "2024-06-14", "2024-06-15"],
      outOfRange := [] } (by decide)

/-- The per-file record assembled by `handleUploadFiles` (fields used by
`buildUploadWarnings` and the aggregation; `source` is the display-only
sheet label). -/
structure UploadFile where
  name : String
  dateString : Option String
  nameIssue : NameIssue
  ages : List ℤ
  error : String
  source : String
  deriving DecidableEq, Repr

/-- The date under which a file is counted by the duplicate-date scan:
`if (!file.dateString || file.nameIssue) return acc` skips files with a
null/empty date string or any name issue. -/
def eligibleDate (f : UploadFile) : Option String :=
  match f.dateString with
  | some d => if d ≠ "" ∧ f.nameIssue = NameIssue.noIssue then some d else none
  | none => none

/-- `acc.set(date, (acc.get(date) || 0) + 1)` on a JS `Map` modelled as an
association list in insertion order: update in place, or append a fresh
entry. -/
def dateCountsBump (acc : List (String × ℕ)) (d : String) : List (String × ℕ) :=
  if acc.any (fun p => p.1 == d) then
    acc.map (fun p => if p.1 == d then (p.1, p.2 + 1) else p)
  else acc ++ [(d, 1)]

/-- The `files.reduce` building `dateCounts` in `buildUploadWarnings`
(`src/App.jsx` lines 180–184). -/
def dateCounts (files : List UploadFile) : List (String × ℕ) :=
  files.foldl (fun acc f =>
    match eligibleDate f with
    | some d => dateCountsBump acc d
    | none => acc) []

/-- `duplicateDates` (`src/App.jsx` line 185): the entries counted more
than once. -/
def duplicateDates (files : List UploadFile) : List (String × ℕ) :=
  (dateCounts files).filter (fun p => 1 < p.2)

/-- Number of duplicate-scan-eligible files carrying date `d`. -/
def countEligible (files : List UploadFile) (d : String) : ℕ :=
  files.countP (fun f => eligibleDate f == some d)

theorem dateCountsBump_mem (acc : List (String × ℕ)) (cnt : String → ℕ)
    (h : ∀ d k, ((d, k) ∈ acc ↔ (cnt d = k ∧ 1 ≤ k))) (d0 : String) :
    ∀ d k, ((d, k) ∈ dateCountsBump acc d0 ↔
      ((if d = d0 then cnt d + 1 else cnt d) = k ∧ 1 ≤ k)) := by
  intro d k
  unfold dateCountsBump
  by_cases hmem : acc.any (fun p => p.1 == d0) = true
  · rw [if_pos hmem]
    rw [List.any_eq_true] at hmem
    obtain ⟨⟨p1, p2⟩, hp, hpd⟩ := hmem
    rw [beq_iff_eq] at hpd
    subst hpd
    have hcp := (h p1 p2).mp hp
    constructor
    · intro hin
      obtain ⟨⟨q1, q2⟩, hq, hqe⟩ := List.mem_map.mp hin
      have hcq := (h q1 q2).mp hq
      by_cases hqd : q1 = p1
      · subst hqd
        rw [if_pos (by simp : (q1, q2).1 == q1)] at hqe
        simp only [Prod.mk.injEq] at hqe
        obtain ⟨rfl, rfl⟩ := hqe
        rw [if_pos rfl]
        exact ⟨by omega, by omega⟩
      · rw [if_neg (by simp [hqd] : ¬((q1, q2).1 == p1) = true)] at hqe
        simp only [Prod.mk.injEq] at hqe
        obtain ⟨rfl, rfl⟩ := hqe
        rw [if_neg hqd]
        exact hcq
    · intro ⟨hk, hk1⟩
      by_cases hd : d = p1
      · subst hd
        rw [if_pos rfl] at hk
        refine List.mem_map.mpr ⟨(d, p2), hp, ?_⟩
        rw [if_pos (by simp : (d, p2).1 == d)]
        simp only [Prod.mk.injEq, true_and]
        omega
      · rw [if_neg hd] at hk
        refine List.mem_map.mpr ⟨(d, k), (h d k).mpr ⟨hk, hk1⟩, ?_⟩
        rw [if_neg (by simp [hd] : ¬((d, k).1 == p1) = true)]
  · rw [if_neg hmem]
    have hcnt0 : cnt d0 = 0 := by
      by_contra hc
      have h1 : 1 ≤ cnt d0 := by omega
      have hin : (d0, cnt d0) ∈ acc := (h d0 (cnt d0)).mpr ⟨rfl, h1⟩
      exact hmem (List.any_eq_true.mpr ⟨(d0, cnt d0), hin, by simp⟩)
    rw [List.mem_append, List.mem_singleton]
    by_cases hd : d = d0
    · subst hd
      rw [if_pos rfl, hcnt0]
      constructor
      · intro hin
        rcases hin with hin | hin
        · have := (h d k).mp hin
          omega
        · simp only [Prod.mk.injEq] at hin
          omega
      · intro ⟨hk, _⟩
        right
        simp only [Prod.mk.injEq, true_and]
        omega
    · rw [if_neg hd]
      constructor
      · intro hin
        rcases hin with hin | hin
        · exact (h d k).mp hin
        · simp only [Prod.mk.injEq] at hin
          exact absurd hin.1 hd
      · intro hk
        exact Or.inl ((h d k).mpr hk)

theorem dateCounts_foldl_mem (files : List UploadFile) :
    ∀ (acc : List (String × ℕ)) (cnt : String → ℕ),
      (∀ d k, ((d, k) ∈ acc ↔ (cnt d = k ∧ 1 ≤ k))) →
      ∀ d k, ((d, k) ∈ files.foldl (fun acc f =>
          match eligibleDate f with
          | some d => dateCountsBump acc d
          | none => acc) acc
        ↔ (cnt d + countEligible files d = k ∧ 1 ≤ k)) := by
  induction files with
  | nil =>
    intro acc cnt h d k
    simp only [List.foldl_nil, countEligible, List.countP_nil, Nat.add_zero]
    exact h d k
  | cons f fs ih =>
    intro acc cnt h d k
    simp only [List.foldl_cons]
    have hstep : countEligible (f :: fs) d
        = (if eligibleDate f == some d then 1 else 0) + countEligible fs d := by
      simp only [countEligible, List.countP_cons]
      omega
    cases hf : eligibleDate f with
    | none =>
      have := ih acc cnt h d k
      rw [hstep, hf]
      simpa using this
    | some d1 =>
      have hbump := dateCountsBump_mem acc cnt h d1
      have hmain := ih (dateCountsBump acc d1)
        (fun x => if x = d1 then cnt x + 1 else cnt x) hbump d k
      have hbeq : ((some d1 == some d) = true) ↔ d = d1 := by
        rw [beq_iff_eq, Option.some.injEq]
        exact eq_comm
      rw [hstep, hf, hmain]
      constructor
      · intro ⟨hk, hk1⟩
        refine ⟨?_, hk1⟩
        by_cases hd : d = d1
        · rw [if_pos hd] at hk
          rw [if_pos (hbeq.mpr hd)]
          omega
        · rw [if_neg hd] at hk
          rw [if_neg (fun hc => hd (hbeq.mp hc))]
          omega
      · intro ⟨hk, hk1⟩
        refine ⟨?_, hk1⟩
        by_cases hd : d = d1
        · rw [if_pos (hbeq.mpr hd)] at hk
          rw [if_pos hd]
          omega
        · rw [if_neg (fun hc => hd (hbeq.mp hc))] at hk
          rw [if_neg hd]
          omega

/-- Each entry of the duplicate scan is a date with its eligible-file
multiplicity. -/
theorem dateCounts_mem (files : List UploadFile) (d : String) (k : ℕ) :
    (d, k) ∈ dateCounts files ↔ (countEligible files d = k ∧ 1 ≤ k) := by
  have h0 : ∀ d k, ((d, k) ∈ ([] : List (String × ℕ)) ↔ ((fun _ => 0) d = k ∧ 1 ≤ k)) := by
    intro d k
    simp
    omega
  have := dateCounts_foldl_mem files [] (fun _ => 0) h0 d k
  simpa [dateCounts] using this

/-- The duplicate-dates warning string pushed by `buildUploadWarnings`
(`src/App.jsx` lines 211–217). -/
def dupWarningText (files : List UploadFile) : String :=
  "같은 날짜 파일이 여러 개 있습니다: " ++ String.intercalate ", "
    ((duplicateDates files).map (fun p => p.1 ++ " (" ++ toString p.2 ++ "개)"))

/-- `buildUploadWarnings` (`src/App.jsx` lines 175–233): one warning string
per non-empty category, pushed in source order. -/
def buildUploadWarnings (files : List UploadFile) (weekCheck : Option WeekCheck) :
    List String :=
  (if files.filter (fun f => f.nameIssue == NameIssue.pattern) ≠ [] then
      ["파일명 규칙과 다른 파일: " ++ String.intercalate ", "
        ((files.filter (fun f => f.nameIssue == NameIssue.pattern)).map (fun f => f.name))]
    else [])
  ++ (if files.filter (fun f => f.nameIssue == NameIssue.date) ≠ [] then
      ["날짜 형식이 올바르지 않은 파일: " ++ String.intercalate ", "
        ((files.filter (fun f => f.nameIssue == NameIssue.date)).map (fun f => f.name))]
    else [])
  ++ (if files.filter (fun f => f.error ≠ "") ≠ [] then
      ["읽기 오류 또는 나이 데이터 없음: " ++ String.intercalate ", "
        ((files.filter (fun f => f.error ≠ "")).map (fun f => f.name))]
    else [])
  ++ (if duplicateDates files ≠ [] then [dupWarningText files] else [])
  ++ (match weekCheck with
      | none => []
      | some wc =>
        (if wc.outOfRange ≠ [] then
            ["다른 주의 파일이 포함되었습니다: " ++ String.intercalate ", " wc.outOfRange]
          else [])
        ++ (if wc.missingDays ≠ [] then
            ["누락된 요일 파일: " ++ String.intercalate ", " wc.missingDays]
          else []))

/-- The `ages` aggregation of `handleUploadFiles` (`src/App.jsx` line 387):
every file's ages concatenated, no exclusion and no deduplication. -/
def aggregateAges (files : List UploadFile) : List ℤ :=
  files.flatMap (fun f => f.ages)

/-- Two strings with different first characters stay different after any
suffixes are appended. -/
theorem append_ne_of_head_ne (t1 t2 r1 r2 : String) (c1 c2 : Char)
    (h1 : t1.data.head? = some c1) (h2 : t2.data.head? = some c2) (hne : c1 ≠ c2) :
    t1 ++ r1 ≠ t2 ++ r2 := by
  intro he
  have hd : (t1 ++ r1).data = (t2 ++ r2).data := by rw [he]
  rw [String.data_append, String.data_append] at hd
  cases ht1 : t1.data with
  | nil => rw [ht1] at h1; simp at h1
  | cons x xs =>
    cases ht2 : t2.data with
    | nil => rw [ht2] at h2; simp at h2
    | cons y ys =>
      rw [ht1] at h1 hd
      rw [ht2] at h2 hd
      simp only [List.head?_cons, Option.some.injEq] at h1 h2
      simp only [List.cons_append, List.cons.injEq] at hd
      exact hne (h1 ▸ h2 ▸ hd.1)

theorem not_mem_ite_singleton (c : Prop) [Decidable c] (s x : String) (hne : x ≠ s) :
    x ∉ (if c then [s] else []) := by
  split
  · simp [hne]
  · simp

/-- C8: a duplicate-dates warning appears exactly when some valid date is
shared by two or more files; it lists each duplicated date with its file
count; and the aggregated age list keeps every file's ages (summed, never
deduplicated, no file excluded). -/
theorem buildUploadWarnings_duplicates (files : List UploadFile) (wk : Option WeekCheck) :
    (dupWarningText files ∈ buildUploadWarnings files wk ↔ duplicateDates files ≠ [])
    ∧ (∀ d k, ((d, k) ∈ duplicateDates files ↔ (countEligible files d = k ∧ 2 ≤ k)))
    ∧ (duplicateDates files ≠ [] ↔ ∃ d, 2 ≤ countEligible files d)
    ∧ (aggregateAges files).length = (files.map (fun f => f.ages.length)).sum := by
  have hdupmem : ∀ d k, ((d, k) ∈ duplicateDates files
      ↔ (countEligible files d = k ∧ 2 ≤ k)) := by
    intro d k
    unfold duplicateDates
    rw [List.mem_filter, dateCounts_mem]
    simp only [decide_eq_true_eq]
    constructor
    · intro ⟨⟨h1, h2⟩, h3⟩
      exact ⟨h1, by omega⟩
    · intro ⟨h1, h2⟩
      exact ⟨⟨h1, by omega⟩, by omega⟩
  refine ⟨?_, hdupmem, ?_, ?_⟩
  · constructor
    · intro hmem
      by_contra hdup
      have hne1 : dupWarningText files ≠ "파일명 규칙과 다른 파일: " ++ String.intercalate ", "
          ((files.filter (fun f => f.nameIssue == NameIssue.pattern)).map (fun f => f.name)) := by
        unfold dupWarningText
        exact append_ne_of_head_ne _ _ _ _ '같' '파' (by decide) (by decide) (by decide)
      have hne2 : dupWarningText files ≠ "날짜 형식이 올바르지 않은 파일: " ++ String.intercalate ", "
          ((files.filter (fun f => f.nameIssue == NameIssue.date)).map (fun f => f.name)) := by
        unfold dupWarningText
        exact append_ne_of_head_ne _ _ _ _ '같' '날' (by decide) (by decide) (by decide)
      have hne3 : dupWarningText files ≠ "읽기 오류 또는 나이 데이터 없음: " ++ String.intercalate ", "
          ((files.filter (fun f => f.error ≠ "")).map (fun f => f.name)) := by
        unfold dupWarningText
        exact append_ne_of_head_ne _ _ _ _ '같' '읽' (by decide) (by decide) (by decide)
      unfold buildUploadWarnings at hmem
      rw [if_neg (not_ne_iff.mpr hdup)] at hmem
      rcases List.mem_append.mp hmem with h | h
      · rcases List.mem_append.mp h with h2 | h2
        · rcases List.mem_append.mp h2 with h3 | h3
          · rcases List.mem_append.mp h3 with h4 | h4
            · exact not_mem_ite_singleton _ _ _ hne1 h4
            · exact not_mem_ite_singleton _ _ _ hne2 h4
          · exact not_mem_ite_singleton _ _ _ hne3 h3
        · simp at h2
      · cases wk with
        | none => simp at h
        | some wc =>
          rcases List.mem_append.mp h with h2 | h2
          · refine not_mem_ite_singleton _ _ _ ?_ h2
            unfold dupWarningText
            exact append_ne_of_head_ne _ _ _ _ '같' '다' (by decide) (by decide) (by decide)
          · refine not_mem_ite_singleton _ _ _ ?_ h2
            unfold dupWarningText
            exact append_ne_of_head_ne _ _ _ _ '같' '누' (by decide) (by decide) (by decide)
    · intro hdup
      have hx : dupWarningText files
          ∈ (if duplicateDates files ≠ [] then [dupWarningText files] else []) := by
        rw [if_pos hdup]
        exact List.mem_cons_self _ _
      unfold buildUploadWarnings
      exact List.mem_append.mpr (Or.inl (List.mem_append.mpr (Or.inr hx)))
  · constructor
    · intro hne
      obtain ⟨⟨d, k⟩, hmem⟩ := List.exists_mem_of_ne_nil _ hne
      obtain ⟨h1, h2⟩ := (hdupmem d k).mp hmem
      exact ⟨d, by omega⟩
    · intro ⟨d, hd⟩
      exact List.ne_nil_of_mem ((hdupmem d (countEligible files d)).mpr ⟨rfl, hd⟩)
  · simp [aggregateAges, List.length_flatMap, Function.comp_def]

/-- A point of the memoised `chartData` array (`src/App.jsx` lines 426–434). -/
structure ChartPoint where
  label : String
  ratio : JSNum
  feverCount : ℕ
  totalCount : ℕ
  deriving DecidableEq, Repr

/-- JavaScript `(a / b) * 100` on non-negative integer counts: `0/0` is `NaN`,
`a/0` with `a > 0` is `Infinity` (and multiplying by 100 preserves both). -/
def jsDivMul100 (a b : ℕ) : JSNum :=
  if b = 0 then (if a = 0 then JSNum.nan else JSNum.inf)
  else JSNum.fin ((a : ℚ) / (b : ℚ) * 100)

/-- `chartData` (`src/App.jsx` lines 426–434): `[]` when `activeGroups` is
empty (`!activeGroups.length`), else one point per group whose `ratio` is
`group.totalCount ? (group.feverCount / group.totalCount) * 100 : 0` —
`totalCount` is truthy exactly when it is nonzero. -/
def chartData (activeGroups : List CombinedGroup) : List ChartPoint :=
  if activeGroups.length = 0 then []
  else activeGroups.map (fun group =>
    { label := group.label
      ratio := if group.totalCount ≠ 0 then jsDivMul100 group.feverCount group.totalCount
               else JSNum.fin 0
      feverCount := group.feverCount
      totalCount := group.totalCount })

example : chartData [CombinedGroup.mk "x" "L" 0 5 []]
    = [ChartPoint.mk "L" (JSNum.fin 0) 5 0] := rfl

/-- C9: every chart point's ratio is a finite number (never `NaN` or
`Infinity`), non-negative, equal to `feverCount/totalCount*100` when
`totalCount` is nonzero and to `0` when `totalCount` is zero; the guard means
the division's `NaN`/`Infinity` branches are unreachable. -/
theorem chartData_ratio (activeGroups : List CombinedGroup) :
    chartData activeGroups = (if activeGroups.length = 0 then [] else
      activeGroups.map (fun g =>
        { label := g.label
          ratio := JSNum.fin (if g.totalCount = 0 then 0
                    else (g.feverCount : ℚ) / (g.totalCount : ℚ) * 100)
          feverCount := g.feverCount
          totalCount := g.totalCount }))
    ∧ ∀ p ∈ chartData activeGroups, ∃ q : ℚ, p.ratio = JSNum.fin q ∧ 0 ≤ q
        ∧ (p.totalCount = 0 → q = 0)
        ∧ (p.totalCount ≠ 0 → q = (p.feverCount : ℚ) / (p.totalCount : ℚ) * 100) := by
  constructor
  · unfold chartData
    split
    · rfl
    · apply List.map_congr_left
      intro g hg
      by_cases ht : g.totalCount = 0
      · simp [jsDivMul100, ht]
      · simp [jsDivMul100, ht]
  · intro p hp
    unfold chartData at hp
    split at hp
    · simp at hp
    · obtain ⟨g, hg, rfl⟩ := List.mem_map.mp hp
      by_cases ht : g.totalCount = 0
      · refine ⟨0, ?_, le_refl 0, ?_, ?_⟩ <;> simp [ht]
      · refine ⟨(g.feverCount : ℚ) / (g.totalCount : ℚ) * 100, ?_, ?_, ?_, ?_⟩
        · simp [jsDivMul100, ht]
        · positivity
        · intro h
          exact absurd h ht
        · intro _
          rfl
